import Mathlib

/-!
Verification of the core algorithms of `PicoGraphics_Zoomable_Mandelbrot.py`.

The Python source is shallowly embedded below: pure functions become Lean
functions, the mutable framebuffer becomes explicit state passing over
`ℤ → ℕ` (flat byte addresses, as in the Python `bytearray`), and the
floating arithmetic of the source is idealised as exact rational
arithmetic over `ℚ`.  Each definition carries a comment pointing at the
source lines it embeds.
-/

/-! ## Complex arithmetic and the escape-time evaluator (source lines 90-96)

Python complex numbers are modelled as pairs `ℚ × ℚ` of (re, im).
`abs(mz) <= 2` on complex numbers is equivalent to `re² + im² ≤ 4`. -/

/-- Complex multiplication `z * w` as used by `mz*mz` in `mandelbrot`. -/
def cmul (z w : ℚ × ℚ) : ℚ × ℚ := (z.1 * w.1 - z.2 * w.2, z.1 * w.2 + z.2 * w.1)

/-- Complex addition `z + w` as used by `mz*mz + c` in `mandelbrot`. -/
def cadd (z w : ℚ × ℚ) : ℚ × ℚ := (z.1 + w.1, z.2 + w.2)

/-- Squared absolute value of a complex number; `abs(mz) <= 2` iff `absSq mz ≤ 4`. -/
def absSq (z : ℚ × ℚ) : ℚ := z.1 * z.1 + z.2 * z.2

/-- The while loop of `mandelbrot` (lines 93-95), with fuel
`maxIter + 1 - n`: the loop guard `n <= MAX_ITER` is exactly `fuel > 0`,
and the guard `abs(mz) <= 2` is the `if` below.  Returns the final `n`. -/
def mandelbrotAux (c : ℚ × ℚ) : ℕ → (ℚ × ℚ) → ℕ → ℕ
  | 0, _, n => n
  | fuel + 1, mz, n =>
    if absSq mz ≤ 4 then mandelbrotAux c fuel (cadd (cmul mz mz) c) (n + 1) else n

/-- The function `mandelbrot(c)` of lines 90-96, with the global
`MAX_ITER` made an explicit parameter: starts at `mz = 0, n = 0`. -/
def mandelbrot (c : ℚ × ℚ) (maxIter : ℕ) : ℕ := mandelbrotAux c (maxIter + 1) (0, 0) 0

theorem mandelbrotAux_succ (c z : ℚ × ℚ) (fuel n : ℕ) :
    mandelbrotAux c (fuel + 1) z n =
      if absSq z ≤ 4 then mandelbrotAux c fuel (cadd (cmul z z) c) (n + 1) else n := rfl

theorem le_mandelbrotAux (c : ℚ × ℚ) (fuel : ℕ) : ∀ z n, n ≤ mandelbrotAux c fuel z n := by
  induction fuel with
  | zero => intro z n; simp [mandelbrotAux]
  | succ fuel ih =>
    intro z n
    rw [mandelbrotAux_succ]
    by_cases h : absSq z ≤ 4
    · simp only [h, if_true]
      exact le_trans (Nat.le_succ n) (ih _ (n + 1))
    · simp [h]

theorem mandelbrotAux_le (c : ℚ × ℚ) (fuel : ℕ) :
    ∀ z n, mandelbrotAux c fuel z n ≤ n + fuel := by
  induction fuel with
  | zero => intro z n; simp [mandelbrotAux]
  | succ fuel ih =>
    intro z n
    rw [mandelbrotAux_succ]
    by_cases h : absSq z ≤ 4
    · simp only [h, if_true]
      calc mandelbrotAux c fuel (cadd (cmul z z) c) (n + 1) ≤ (n + 1) + fuel := ih _ (n + 1)
        _ = n + (fuel + 1) := by omega
    · simp [h]

theorem mandelbrotAux_mono (c : ℚ × ℚ) (fuel1 : ℕ) :
    ∀ fuel2 z n, fuel1 ≤ fuel2 → mandelbrotAux c fuel1 z n ≤ mandelbrotAux c fuel2 z n := by
  induction fuel1 with
  | zero => intro fuel2 z n _; simpa [mandelbrotAux] using le_mandelbrotAux c fuel2 z n
  | succ fuel1 ih =>
    intro fuel2 z n h12
    obtain ⟨fuel2, rfl⟩ : ∃ k, fuel2 = k + 1 := ⟨fuel2 - 1, by omega⟩
    rw [mandelbrotAux_succ, mandelbrotAux_succ]
    by_cases h : absSq z ≤ 4
    · simp only [h, if_true]
      exact ih fuel2 _ (n + 1) (by omega)
    · simp [h]

theorem mandelbrotAux_stable (c : ℚ × ℚ) (fuel1 : ℕ) :
    ∀ fuel2 z n, fuel1 ≤ fuel2 → mandelbrotAux c fuel1 z n < n + fuel1 →
      mandelbrotAux c fuel2 z n = mandelbrotAux c fuel1 z n := by
  induction fuel1 with
  | zero => intro fuel2 z n _ hlt; simp [mandelbrotAux] at hlt
  | succ fuel1 ih =>
    intro fuel2 z n h12 hlt
    obtain ⟨fuel2, rfl⟩ : ∃ k, fuel2 = k + 1 := ⟨fuel2 - 1, by omega⟩
    rw [mandelbrotAux_succ] at hlt ⊢
    rw [mandelbrotAux_succ]
    by_cases h : absSq z ≤ 4
    · simp only [h, if_true] at hlt ⊢
      exact ih fuel2 _ (n + 1) (by omega) (by omega)
    · simp [h]

theorem mandelbrotAux_zero_orbit (fuel : ℕ) :
    ∀ n, mandelbrotAux (0, 0) fuel (0, 0) n = n + fuel := by
  induction fuel with
  | zero => intro n; simp [mandelbrotAux]
  | succ fuel ih =>
    intro n
    rw [mandelbrotAux_succ]
    have hc : absSq ((0 : ℚ), (0 : ℚ)) ≤ 4 := by norm_num [absSq]
    have hz : cadd (cmul ((0 : ℚ), (0 : ℚ)) ((0 : ℚ), (0 : ℚ))) ((0 : ℚ), (0 : ℚ)) =
        ((0 : ℚ), (0 : ℚ)) := by norm_num [cadd, cmul]
    rw [if_pos hc, hz, ih (n + 1)]
    omega

/-- C5: for every complex point `c` and positive bounds `maxIter1 < maxIter2`,
the escape-time evaluator is monotone in the iteration bound, and once the
point has escaped under the smaller bound (`mandelbrot c maxIter1 < maxIter1`)
the two bounds give the same count. -/
theorem mandelbrot_monotone (c : ℚ × ℚ) (maxIter1 maxIter2 : ℕ) (h : maxIter1 < maxIter2) :
    mandelbrot c maxIter1 ≤ mandelbrot c maxIter2 ∧
      (mandelbrot c maxIter1 < maxIter1 → mandelbrot c maxIter1 = mandelbrot c maxIter2) := by
  constructor
  · exact mandelbrotAux_mono c (maxIter1 + 1) (maxIter2 + 1) (0, 0) 0 (by omega)
  · intro hesc
    unfold mandelbrot at hesc ⊢
    exact (mandelbrotAux_stable c (maxIter1 + 1) (maxIter2 + 1) (0, 0) 0 (by omega)
      (by omega)).symm

theorem mandelbrot_monotone_witness :
    2 < 5 ∧ (mandelbrot ((10 : ℚ), (10 : ℚ)) 2 ≤ mandelbrot ((10 : ℚ), (10 : ℚ)) 5 ∧
      (mandelbrot ((10 : ℚ), (10 : ℚ)) 2 < 2 →
        mandelbrot ((10 : ℚ), (10 : ℚ)) 2 = mandelbrot ((10 : ℚ), (10 : ℚ)) 5)) :=
  ⟨by norm_num, mandelbrot_monotone ((10 : ℚ), (10 : ℚ)) 2 5 (by norm_num)⟩

/-- C9: for every point and every bound `maxIter ≥ 1` the evaluator returns a
count `n` with `1 ≤ n ≤ maxIter + 1`; the loop always runs at least once, and
for the never-escaping point `c = 0` the count is exactly `maxIter + 1`,
one more than the stated bound. -/
theorem mandelbrot_range (c : ℚ × ℚ) (maxIter : ℕ) (_h : 1 ≤ maxIter) :
    1 ≤ mandelbrot c maxIter ∧ mandelbrot c maxIter ≤ maxIter + 1 ∧
      mandelbrot ((0 : ℚ), (0 : ℚ)) maxIter = maxIter + 1 := by
  refine ⟨?lo, ?hi, ?inside⟩
  case lo =>
    unfold mandelbrot
    rw [mandelbrotAux_succ, if_pos (by norm_num [absSq])]
    exact le_mandelbrotAux c maxIter _ 1
  case hi => simpa using mandelbrotAux_le c (maxIter + 1) (0, 0) 0
  case inside => simpa using mandelbrotAux_zero_orbit (maxIter + 1) 0

theorem mandelbrot_range_witness :
    1 ≤ 3 ∧ (1 ≤ mandelbrot ((10 : ℚ), (10 : ℚ)) 3 ∧
      mandelbrot ((10 : ℚ), (10 : ℚ)) 3 ≤ 3 + 1 ∧
      mandelbrot ((0 : ℚ), (0 : ℚ)) 3 = 3 + 1) :=
  ⟨by norm_num, mandelbrot_range ((10 : ℚ), (10 : ℚ)) 3 (by norm_num)⟩

/-! ## Colour palette (source lines 21-23 and 46-48) -/

/-- The `pen_colour` table of lines 21-23: fifteen RGB triples. -/
def pen_colour : List (ℕ × ℕ × ℕ) :=
  [(0, 0, 0),
   (255, 0, 0), (0, 255, 0), (0, 0, 255), (255, 255, 0), (255, 0, 255), (0, 255, 255),
   (255, 255, 255),
   (128, 0, 0), (0, 128, 0), (0, 0, 128), (128, 128, 0), (128, 0, 128), (0, 128, 128),
   (128, 128, 128)]

/-- Lines 46-47: `MAX_COLOURS = 10` limited to the length of `pen_colour`. -/
def MAX_COLOURS : ℕ := min 10 pen_colour.length

/-- Line 111 (worker `mandelbrotThreadX`): `colour = int(m - 1) % 15`. -/
def workerColourOfIter (m : ℕ) : ℕ := (m - 1) % 15

/-- Line 139 (coordinator `DrawMandelbrotX`): `colour = int(m - 1) % MAX_COLOURS`. -/
def coordColourOfIter (m : ℕ) : ℕ := (m - 1) % MAX_COLOURS

/-- Line 140: the coordinator draws its own pixel only when `colour > 0`. -/
def coordinatorDraws (m : ℕ) : Bool := decide (0 < coordColourOfIter m)

/-- Line 153: a worker result is plotted only when `results[y]` is truthy,
that is, a non-zero stored colour index. -/
def workerPlotDraws (stored : ℕ) : Bool := stored != 0

/-- C10: every palette index produced during a render pass is in bounds for
the 15-entry `pen_colour` table: the worker's `(m-1) % 15` is below the table
length, the coordinator's `(m-1) % MAX_COLOURS` is below `MAX_COLOURS ≤ 15`,
and each side draws a pixel only when its index is strictly positive. -/
theorem palette_index_safety (m : ℕ) :
    pen_colour.length = 15 ∧
      workerColourOfIter m < pen_colour.length ∧
      MAX_COLOURS ≤ pen_colour.length ∧ MAX_COLOURS ≤ 15 ∧
      coordColourOfIter m < MAX_COLOURS ∧
      (coordinatorDraws m = true ↔ 0 < coordColourOfIter m) ∧
      (workerPlotDraws (workerColourOfIter m) = true ↔ 0 < workerColourOfIter m) := by
  refine ⟨rfl, ?w, by decide, by decide, ?c, by simp [coordinatorDraws], ?d⟩
  case w => simpa [pen_colour] using Nat.mod_lt (m - 1) (by norm_num : (0 : ℕ) < 15)
  case c => exact Nat.mod_lt (m - 1) (by decide)
  case d => simp [workerPlotDraws, Nat.pos_iff_ne_zero]

/-! ## Viewport sampling and the two per-pixel colour paths
(source lines 98-116 worker, 134-142 coordinator) -/

/-- The four viewport bounds `realStart, realEnd, imStart, imEnd`
(globals, lines 53-54, mutated by the navigation commands). -/
structure Viewport where
  realStart : ℚ
  realEnd : ℚ
  imStart : ℚ
  imEnd : ℚ
  deriving DecidableEq

/-- Pixel-to-plane sampling shared by lines 103/108 (worker) and 134/136
(coordinator): `(realStart + x/W*(realEnd-realStart), imStart + y/H*(imEnd-imStart))`. -/
def sampleAt (vp : Viewport) (W H x y : ℕ) : ℚ × ℚ :=
  (vp.realStart + ((x : ℚ) / (W : ℚ)) * (vp.realEnd - vp.realStart),
   vp.imStart + ((y : ℚ) / (H : ℚ)) * (vp.imEnd - vp.imStart))

/-- Lines 106-113: the colour index the worker stores in `results[y]`
for pixel `(x, y)`. -/
def workerPixelColour (vp : Viewport) (W H maxIter x y : ℕ) : ℕ :=
  workerColourOfIter (mandelbrot (sampleAt vp W H x y) maxIter)

/-- Lines 134-139: the colour index the coordinator computes for
pixel `(x, y)`. -/
def coordPixelColour (vp : Viewport) (W H maxIter x y : ℕ) : ℕ :=
  coordColourOfIter (mandelbrot (sampleAt vp W H x y) maxIter)

theorem mandelbrotAux_cycle_i (fuel : ℕ) :
    ∀ n z, (z = ((0 : ℚ), (0 : ℚ)) ∨ z = ((0 : ℚ), (1 : ℚ)) ∨
        z = ((-1 : ℚ), (1 : ℚ)) ∨ z = ((0 : ℚ), (-1 : ℚ))) →
      mandelbrotAux ((0 : ℚ), (1 : ℚ)) fuel z n = n + fuel := by
  induction fuel with
  | zero => intro n z _; simp [mandelbrotAux]
  | succ fuel ih =>
    intro n z hz
    rw [mandelbrotAux_succ]
    rcases hz with rfl | rfl | rfl | rfl
    · rw [if_pos (by norm_num [absSq])]
      rw [show cadd (cmul ((0 : ℚ), (0 : ℚ)) ((0 : ℚ), (0 : ℚ))) ((0 : ℚ), (1 : ℚ)) =
          ((0 : ℚ), (1 : ℚ)) by norm_num [cadd, cmul]]
      rw [ih (n + 1) _ (Or.inr (Or.inl rfl))]; omega
    · rw [if_pos (by norm_num [absSq])]
      rw [show cadd (cmul ((0 : ℚ), (1 : ℚ)) ((0 : ℚ), (1 : ℚ))) ((0 : ℚ), (1 : ℚ)) =
          ((-1 : ℚ), (1 : ℚ)) by norm_num [cadd, cmul]]
      rw [ih (n + 1) _ (Or.inr (Or.inr (Or.inl rfl)))]; omega
    · rw [if_pos (by norm_num [absSq])]
      rw [show cadd (cmul ((-1 : ℚ), (1 : ℚ)) ((-1 : ℚ), (1 : ℚ))) ((0 : ℚ), (1 : ℚ)) =
          ((0 : ℚ), (-1 : ℚ)) by norm_num [cadd, cmul]]
      rw [ih (n + 1) _ (Or.inr (Or.inr (Or.inr rfl)))]; omega
    · rw [if_pos (by norm_num [absSq])]
      rw [show cadd (cmul ((0 : ℚ), (-1 : ℚ)) ((0 : ℚ), (-1 : ℚ))) ((0 : ℚ), (1 : ℚ)) =
          ((-1 : ℚ), (1 : ℚ)) by norm_num [cadd, cmul]]
      rw [ih (n + 1) _ (Or.inr (Or.inr (Or.inl rfl)))]; omega

theorem mandelbrot_i_never_escapes (maxIter : ℕ) :
    mandelbrot ((0 : ℚ), (1 : ℚ)) maxIter = maxIter + 1 := by
  unfold mandelbrot
  rw [mandelbrotAux_cycle_i (maxIter + 1) 0 _ (Or.inl rfl)]
  omega

/-- C1 counterexample: with viewport `⟨0, 1, 1, 2⟩`, a 240×240 surface and
`MAX_ITER = 15`, pixel `(0, 0)` samples the plane point `i`, which never
escapes (iteration count 16); the worker stores `(16-1) % 15 = 0` while the
coordinator computes `(16-1) % MAX_COLOURS = 5`: the two palette sizes differ,
so the two colour indices differ at the same iteration count. -/
theorem worker_coord_colour_differ_at_sample :
    workerPixelColour ⟨0, 1, 1, 2⟩ 240 240 15 0 0 = 0 ∧
      coordPixelColour ⟨0, 1, 1, 2⟩ 240 240 15 0 0 = 5 ∧
      ¬ workerPixelColour ⟨0, 1, 1, 2⟩ 240 240 15 0 0 =
          coordPixelColour ⟨0, 1, 1, 2⟩ 240 240 15 0 0 := by
  have hs : sampleAt ⟨0, 1, 1, 2⟩ 240 240 0 0 = ((0 : ℚ), (1 : ℚ)) := by
    norm_num [sampleAt]
  refine ⟨?w, ?c, ?ne⟩
  case w =>
    unfold workerPixelColour
    rw [hs, mandelbrot_i_never_escapes]
    decide
  case c =>
    unfold coordPixelColour
    rw [hs, mandelbrot_i_never_escapes]
    decide
  case ne =>
    unfold workerPixelColour coordPixelColour
    rw [hs, mandelbrot_i_never_escapes]
    decide

/-- C1 amended: the worker maps the iteration count with palette size 15
(line 111) while the coordinator maps with `MAX_COLOURS = 10` (line 139), so
the two indices are not equal in general; they do agree at every pixel whose
iteration count is at most `MAX_COLOURS`. -/
theorem worker_coord_colour_agree_below_max_colours (vp : Viewport) (W H maxIter x y : ℕ)
    (hm : mandelbrot (sampleAt vp W H x y) maxIter ≤ MAX_COLOURS) :
    workerPixelColour vp W H maxIter x y = coordPixelColour vp W H maxIter x y := by
  unfold workerPixelColour coordPixelColour workerColourOfIter coordColourOfIter
  have h10 : MAX_COLOURS = 10 := by decide
  rw [h10] at hm ⊢
  rw [Nat.mod_eq_of_lt (by omega), Nat.mod_eq_of_lt (by omega)]

theorem worker_coord_colour_agree_witness :
    mandelbrot (sampleAt ⟨10, 11, 10, 11⟩ 240 240 0 0) 15 ≤ MAX_COLOURS ∧
      workerPixelColour ⟨10, 11, 10, 11⟩ 240 240 15 0 0 =
        coordPixelColour ⟨10, 11, 10, 11⟩ 240 240 15 0 0 := by
  have hs : sampleAt ⟨10, 11, 10, 11⟩ 240 240 0 0 = ((10 : ℚ), (10 : ℚ)) := by
    norm_num [sampleAt]
  have hesc : mandelbrot ((10 : ℚ), (10 : ℚ)) 15 = 1 := by
    unfold mandelbrot
    rw [mandelbrotAux_succ, if_pos (by norm_num [absSq])]
    rw [show cadd (cmul ((0 : ℚ), (0 : ℚ)) ((0 : ℚ), (0 : ℚ))) ((10 : ℚ), (10 : ℚ)) =
        ((10 : ℚ), (10 : ℚ)) by norm_num [cadd, cmul]]
    rw [show (15 : ℕ) = 14 + 1 from rfl, mandelbrotAux_succ,
      if_neg (by norm_num [absSq])]
  have hle : mandelbrot (sampleAt ⟨10, 11, 10, 11⟩ 240 240 0 0) 15 ≤ MAX_COLOURS := by
    rw [hs, hesc]; decide
  exact ⟨hle, worker_coord_colour_agree_below_max_colours ⟨10, 11, 10, 11⟩ 240 240 15 0 0 hle⟩

/-! ## Display flush schedule of the render pass (source lines 128 and 157-160) -/

/-- Line 128: `for x in range(0, WIDTH, 2)` — the worker-column of each pair. -/
def pairColumns (W : ℕ) : List ℕ := (List.range W).filter (fun x => x % 2 == 0)

/-- Lines 157-158: inside the loop, `display.update()` runs when `x % 2 == 0`. -/
def inLoopFlushColumns (W : ℕ) : List ℕ := (pairColumns W).filter (fun x => x % 2 == 0)

/-- Lines 157-160: number of `display.update()` calls in a render pass —
one per flushing loop step plus the single final flush of line 160. -/
def totalFlushCount (W : ℕ) : ℕ := (inLoopFlushColumns W).length + 1

/-- C4: with even width `W = 8` the loop flush guard `x % 2 == 0` holds at
every column pair (x steps by 2, so it is always even), giving an in-loop
flush on all four pairs plus the final flush — five flushes, not the
"every second pair" schedule (which would flush only at x = 0 and x = 4). -/
theorem draw_flushes_every_pair :
    inLoopFlushColumns 8 = pairColumns 8 ∧ pairColumns 8 = [0, 2, 4, 6] ∧
      totalFlushCount 8 = 5 := by decide

/-! ## The ZoomIn viewport transform (source lines 268-273) -/

/-- Lines 268-273: the `ZoomIn` update of the four viewport bounds from the
current cursor rectangle.  `realEnd` is computed from the already-updated
`realStart` (line 271), likewise `imEnd` (line 273).  Python ints divide by
`WIDTH`/`HEIGHT` with true division, hence the casts into `ℚ`. -/
def zoomIn (vp : Viewport) (left right top bottom W H : ℤ) : Viewport :=
  let realRange := vp.realEnd - vp.realStart
  let imRange := vp.imEnd - vp.imStart
  let rs := vp.realStart + realRange * (left : ℚ) / (W : ℚ)
  let re := rs + ((right : ℚ) - (left : ℚ)) * realRange / (W : ℚ)
  let is0 := vp.imStart + imRange * (top : ℚ) / (H : ℚ)
  let ie := is0 + ((bottom : ℚ) - (top : ℚ)) * imRange / (H : ℚ)
  ⟨rs, re, is0, ie⟩

/-- C6 counterexample: a cursor region equal to the full 240×240 surface is
`{left 0, right 239, top 0, bottom 239}`; ZoomIn on it from the default
viewport of lines 53-54 is not the identity — the spans shrink by 239/240. -/
theorem zoomIn_fullscreen_cursor_not_identity :
    zoomIn ⟨-41/20, 11/20, -6/5, 6/5⟩ 0 239 0 239 240 240 ≠
      ⟨-41/20, 11/20, -6/5, 6/5⟩ := by
  intro hEq
  have h2 := congrArg Viewport.realEnd hEq
  norm_num [zoomIn] at h2

/-- C6 amended: ZoomIn is the identity only for the idealised rectangle whose
pixel span is the full width `W` and height `H` (left 0, right `W`, top 0,
bottom `H`) — one pixel wider and taller than the largest on-surface cursor
rectangle `{0, W-1, 0, H-1}`. -/
theorem zoomIn_pixel_span_identity (vp : Viewport) (W H : ℤ) (hW : W ≠ 0) (hH : H ≠ 0) :
    zoomIn vp 0 W 0 H W H = vp := by
  have hWQ : (W : ℚ) ≠ 0 := Int.cast_ne_zero.mpr hW
  have hHQ : (H : ℚ) ≠ 0 := Int.cast_ne_zero.mpr hH
  cases vp with
  | mk a b c d =>
    simp only [zoomIn, Viewport.mk.injEq]
    norm_num
    constructor
    · field_simp
    · field_simp

theorem zoomIn_pixel_span_identity_witness :
    (240 : ℤ) ≠ 0 ∧ (240 : ℤ) ≠ 0 ∧
      zoomIn ⟨-41/20, 11/20, -6/5, 6/5⟩ 0 240 0 240 240 240 =
        ⟨-41/20, 11/20, -6/5, 6/5⟩ :=
  ⟨by norm_num, by norm_num,
    zoomIn_pixel_span_identity ⟨-41/20, 11/20, -6/5, 6/5⟩ 240 240 (by norm_num) (by norm_num)⟩

/-! ## The resolution toggle (source lines 296-307) -/

/-- The pieces of global state touched or read by `ChangeRez`: the iteration
budget `MAX_ITER` (a Python number — `/` on line 304 is true division, hence
`ℚ`), the `isHiRez` flag, and the viewport bounds. -/
structure SysState where
  maxIter : ℚ
  isHiRez : Bool
  viewport : Viewport
  deriving DecidableEq

/-- Lines 296-307: `ChangeRez` with the button state made explicit.  When
pressed it flips `isHiRez`, then doubles `MAX_ITER` on entering high
resolution and halves it on leaving. -/
def ChangeRez (pressed : Bool) (s : SysState) : SysState :=
  if pressed then
    let hi := !s.isHiRez
    { s with isHiRez := hi, maxIter := if hi then s.maxIter * 2 else s.maxIter / 2 }
  else s

/-- C7: pressing the resolution toggle twice in a row returns the iteration
budget `MAX_ITER` to a value numerically equal to its original value,
from either starting state of the `isHiRez` flag. -/
theorem changeRez_twice_maxIter (s : SysState) :
    (ChangeRez true (ChangeRez true s)).maxIter = s.maxIter ∧
      (ChangeRez true (ChangeRez true s)).isHiRez = s.isHiRez := by
  cases s with
  | mk m hi vp =>
    cases hi with
    | false =>
      simp only [ChangeRez, if_true, Bool.not_false, Bool.not_true, if_false]
      norm_num
    | true =>
      simp only [ChangeRez, if_true, Bool.not_false, Bool.not_true, if_false]
      norm_num

/-- C8: a resolution-toggle event leaves the four viewport bounds untouched —
`ChangeRez` only modifies `isHiRez` and `MAX_ITER`, whether or not the
button is pressed. -/
theorem changeRez_viewport_frame (pressed : Bool) (s : SysState) :
    (ChangeRez pressed s).viewport = s.viewport := by
  cases pressed with
  | false => rfl
  | true => rfl

/-! ## Cursor region derivation in MoveCursor (source lines 176-215) -/

/-- Python `int()` applied to a (here exactly represented) float value:
truncation toward zero. -/
def pyInt (q : ℚ) : ℤ := if q < 0 then ⌈q⌉ else ⌊q⌋

/-- Display size from `display.get_bounds()`, "expecting 240, 240" (line 61). -/
def WIDTH : ℤ := 240

/-- Display height, equal to 240 like the width. -/
def HEIGHT : ℤ := 240

/-- Lines 176-178: `int(pot.read_voltage() / 3.3 * WIDTH)`. -/
def getCursorX (v : ℚ) : ℤ := pyInt (v / (33/10) * (WIDTH : ℚ))

/-- Lines 180-182: `int(HEIGHT - pot.read_voltage() / 3.3 * HEIGHT)`. -/
def getCursorY (v : ℚ) : ℤ := pyInt ((HEIGHT : ℚ) - v / (33/10) * (HEIGHT : ℚ))

/-- Lines 184-186: `int(pot.read_voltage() / 3.3 * min(HEIGHT, WIDTH))`. -/
def getZoomLevel (v : ℚ) : ℤ := pyInt (v / (33/10) * ((min HEIGHT WIDTH : ℤ) : ℚ))

/-- The cursor rectangle `{left, right, top, bottom}` in pixel coordinates. -/
structure CursorRegion where
  left : ℤ
  right : ℤ
  top : ℤ
  bottom : ℤ
  deriving DecidableEq

/-- Lines 199-215 of `MoveCursor`: derive the cursor rectangle of one control
cycle from the three analog voltages.  `newHeight = int(z/2)` and
`newWidth = int((z * WIDTH / HEIGHT) / 2)` use Python true division inside
`int()`; the centre is clamped by `max` against the half-extent and then by
`min` against `WIDTH - 1 - newWidth` (resp. height). -/
def moveCursorRegion (vx vy vz : ℚ) : CursorRegion :=
  let z := getZoomLevel vz
  let newHeight := pyInt ((z : ℚ) / 2)
  let newWidth := pyInt ((z : ℚ) * (WIDTH : ℚ) / (HEIGHT : ℚ) / 2)
  let x0 := min (max newWidth (getCursorX vx)) (WIDTH - 1 - newWidth)
  let y0 := min (max newHeight (getCursorY vy)) (HEIGHT - 1 - newHeight)
  ⟨x0 - newWidth, x0 + newWidth, y0 - newHeight, y0 + newHeight⟩

/-- C3: at the maximum zoom-knob voltage 3.3 V the zoom level is 240, the
cursor half-width is 120, and the clamp `min(x0, WIDTH - 1 - newWidth)`
forces the centre to 119, so the derived rectangle is
`{left -1, right 239, top -1, bottom 239}` — one pixel off the surface,
violating `0 ≤ left` and `0 ≤ top`. -/
theorem moveCursor_max_zoom_off_surface :
    moveCursorRegion (33/10) (33/10) (33/10) = ⟨-1, 239, -1, 239⟩ ∧
      ¬ (0 ≤ (moveCursorRegion (33/10) (33/10) (33/10)).left) := by
  have hz : getZoomLevel (33/10) = 240 := by
    norm_num [getZoomLevel, pyInt, HEIGHT, WIDTH]
  have hx : getCursorX (33/10) = 240 := by
    norm_num [getCursorX, pyInt, WIDTH]
  have hy : getCursorY (33/10) = 0 := by
    norm_num [getCursorY, pyInt, HEIGHT]
  have hr : moveCursorRegion (33/10) (33/10) (33/10) = ⟨-1, 239, -1, 239⟩ := by
    simp only [moveCursorRegion, hz, hx, hy]
    norm_num [pyInt, WIDTH, HEIGHT]
  exact ⟨hr, by rw [hr]; decide⟩

/-! ## Cursor outline save, draw and restore (source lines 73-83 and 219-251)

The framebuffer is the flat `bytearray` of line 75, addressed by
`x + y * WIDTH`; it is modelled as a total map `ℤ → ℕ` together with
hypotheses keeping every touched address inside `[0, WIDTH*HEIGHT)`,
where the two models agree. -/

/-- A single byte store `buffer[a] = v`. -/
def bufWrite (f : ℤ → ℕ) (a : ℤ) (v : ℕ) : ℤ → ℕ := fun x => if x = a then v else f x

/-- Execute a list of byte stores from left to right. -/
def writeSeq (f : ℤ → ℕ) (ws : List (ℤ × ℕ)) : ℤ → ℕ :=
  ws.foldl (fun g p => bufWrite g p.1 p.2) f

theorem writeSeq_of_not_mem (a : ℤ) :
    ∀ (ws : List (ℤ × ℕ)) (f : ℤ → ℕ), (∀ p ∈ ws, p.1 ≠ a) → writeSeq f ws a = f a := by
  intro ws
  induction ws with
  | nil => intro f _; rfl
  | cons q ws ih =>
    intro f h
    have hq : q.1 ≠ a := h q (List.mem_cons_self q ws)
    have hstep : writeSeq f (q :: ws) = writeSeq (bufWrite f q.1 q.2) ws := rfl
    rw [hstep, ih (bufWrite f q.1 q.2) (fun p hp => h p (List.mem_cons_of_mem q hp))]
    simp only [bufWrite]
    rw [if_neg hq.symm]

theorem writeSeq_restore (g : ℤ → ℕ) (a : ℤ) :
    ∀ (ws : List (ℤ × ℕ)) (f : ℤ → ℕ), (∀ p ∈ ws, p.2 = g p.1) →
      (∃ p ∈ ws, p.1 = a) → writeSeq f ws a = g a := by
  intro ws
  induction ws with
  | nil => intro f _ hex; simp at hex
  | cons q ws ih =>
    intro f hall hex
    have hstep : writeSeq f (q :: ws) = writeSeq (bufWrite f q.1 q.2) ws := rfl
    rw [hstep]
    by_cases hmem : ∃ p ∈ ws, p.1 = a
    · exact ih _ (fun p hp => hall p (List.mem_cons_of_mem q hp)) hmem
    · push_neg at hmem
      obtain ⟨p, hp, hpa⟩ := hex
      rcases List.mem_cons.mp hp with rfl | hp2
      · rw [writeSeq_of_not_mem a ws _ hmem]
        simp only [bufWrite]
        rw [if_pos hpa.symm, hall p (List.mem_cons_self p ws), hpa]
      · exact absurd hpa (hmem p hp2)

/-- Line 237: `top_pix[i] = buffer[left + i - 1 + (top * WIDTH)]` — the top
edge is saved shifted one pixel to the left ("corner pixel stored once"). -/
def top_pix (buf : ℤ → ℕ) (l t W : ℤ) (i : ℕ) : ℕ := buf (l + i - 1 + t * W)

/-- Line 238: `bottom_pix[i] = buffer[left + i + (bottom * WIDTH)]`. -/
def bottom_pix (buf : ℤ → ℕ) (l b W : ℤ) (i : ℕ) : ℕ := buf (l + i + b * W)

/-- Line 240: `left_pix[i] = buffer[left + ((top + i) * WIDTH)]`. -/
def left_pix (buf : ℤ → ℕ) (l t W : ℤ) (i : ℕ) : ℕ := buf (l + (t + i) * W)

/-- Line 241: `right_pix[i] = buffer[right + ((top + i - 1) * WIDTH)]` — the
right edge is saved shifted one row up. -/
def right_pix (buf : ℤ → ℕ) (r t W : ℤ) (i : ℕ) : ℕ := buf (r + (t + i - 1) * W)

/-- Lines 225-230: the restore loops of `MoveCursor`, as the list of byte
stores they perform, in program order, for a rectangle whose four edges were
saved from buffer state `buf` by lines 236-241 (the addresses written are
exactly the addresses previously read, with the same index arithmetic). -/
def restoreWrites (buf : ℤ → ℕ) (l r t b W : ℤ) : List (ℤ × ℕ) :=
  ((List.range (r - l + 1).toNat).flatMap fun i =>
    [(l + i - 1 + t * W, top_pix buf l t W i), (l + i + b * W, bottom_pix buf l b W i)]) ++
  ((List.range (b - t + 1).toNat).flatMap fun i =>
    [(l + (t + i) * W, left_pix buf l t W i), (r + (t + i - 1) * W, right_pix buf r t W i)])

/-- A horizontal `display.line(x1, y, x2, y)`: pixels `x1..x2` of row `y`. -/
def lineWritesH (x1 x2 y W : ℤ) (pen : ℕ) : List (ℤ × ℕ) :=
  (List.range (x2 - x1 + 1).toNat).map fun i => (x1 + i + y * W, pen)

/-- A vertical `display.line(x, y1, x, y2)`: pixels of column `x`, rows `y1..y2`. -/
def lineWritesV (x y1 y2 W : ℤ) (pen : ℕ) : List (ℤ × ℕ) :=
  (List.range (y2 - y1 + 1).toNat).map fun i => (x + (y1 + i) * W, pen)

/-- Lines 244-248: drawing the cursor rectangle outline with the WHITE pen —
top row, right column, bottom row, left column. -/
def drawWrites (l r t b W : ℤ) (pen : ℕ) : List (ℤ × ℕ) :=
  lineWritesH l r t W pen ++ lineWritesV r t b W pen ++
    lineWritesH l r b W pen ++ lineWritesV l t b W pen

theorem restore_mem_top (buf : ℤ → ℕ) (l r t b W : ℤ) (i : ℕ) (hi : (i : ℤ) ≤ r - l) :
    (l + i - 1 + t * W, top_pix buf l t W i) ∈ restoreWrites buf l r t b W := by
  unfold restoreWrites
  refine List.mem_append_left _ (List.mem_flatMap.mpr ⟨i, List.mem_range.mpr ?_, ?_⟩)
  · omega
  · simp

theorem restore_mem_bottom (buf : ℤ → ℕ) (l r t b W : ℤ) (i : ℕ) (hi : (i : ℤ) ≤ r - l) :
    (l + i + b * W, bottom_pix buf l b W i) ∈ restoreWrites buf l r t b W := by
  unfold restoreWrites
  refine List.mem_append_left _ (List.mem_flatMap.mpr ⟨i, List.mem_range.mpr ?_, ?_⟩)
  · omega
  · simp

theorem restore_mem_left (buf : ℤ → ℕ) (l r t b W : ℤ) (i : ℕ) (hi : (i : ℤ) ≤ b - t) :
    (l + (t + i) * W, left_pix buf l t W i) ∈ restoreWrites buf l r t b W := by
  unfold restoreWrites
  refine List.mem_append_right _ (List.mem_flatMap.mpr ⟨i, List.mem_range.mpr ?_, ?_⟩)
  · omega
  · simp

theorem restore_mem_right (buf : ℤ → ℕ) (l r t b W : ℤ) (i : ℕ) (hi : (i : ℤ) ≤ b - t) :
    (r + (t + i - 1) * W, right_pix buf r t W i) ∈ restoreWrites buf l r t b W := by
  unfold restoreWrites
  refine List.mem_append_right _ (List.mem_flatMap.mpr ⟨i, List.mem_range.mpr ?_, ?_⟩)
  · omega
  · simp

theorem restoreWrites_values (buf : ℤ → ℕ) (l r t b W : ℤ) :
    ∀ p ∈ restoreWrites buf l r t b W, p.2 = buf p.1 := by
  intro p hp
  unfold restoreWrites at hp
  rcases List.mem_append.mp hp with h1 | h1 <;>
    · obtain ⟨i, _, hmem⟩ := List.mem_flatMap.mp h1
      simp only [List.mem_cons, List.not_mem_nil, or_false] at hmem
      rcases hmem with rfl | rfl <;> rfl

theorem restoreWrites_cover (buf : ℤ → ℕ) (l r t b W cx cy : ℤ)
    (hlr : l ≤ r) (htb : t ≤ b)
    (hborder : ((cy = t ∨ cy = b) ∧ l ≤ cx ∧ cx ≤ r) ∨
      ((cx = l ∨ cx = r) ∧ t ≤ cy ∧ cy ≤ b)) :
    ∃ p ∈ restoreWrites buf l r t b W, p.1 = cx + cy * W := by
  rcases hborder with ⟨hrow, hxl, hxr⟩ | ⟨hcol, hyt, hyb⟩
  · rcases hrow with hcy | hcy
    · by_cases hx : cx < r
      · refine ⟨_, restore_mem_top buf l r t b W (cx - l + 1).toNat (by omega), ?_⟩
        have hc : (((cx - l + 1).toNat : ℤ)) = cx - l + 1 := Int.toNat_of_nonneg (by omega)
        dsimp only
        rw [hc, hcy]; ring
      · have hxr2 : cx = r := by omega
        by_cases hb : t < b
        · refine ⟨_, restore_mem_right buf l r t b W 1 (by omega), ?_⟩
          dsimp only
          rw [hxr2, hcy]; push_cast; ring
        · have hb2 : b = t := by omega
          refine ⟨_, restore_mem_bottom buf l r t b W (r - l).toNat (by omega), ?_⟩
          have hc : (((r - l).toNat : ℤ)) = r - l := Int.toNat_of_nonneg (by omega)
          dsimp only
          rw [hc, hxr2, hcy, hb2]; ring
    · refine ⟨_, restore_mem_bottom buf l r t b W (cx - l).toNat (by omega), ?_⟩
      have hc : (((cx - l).toNat : ℤ)) = cx - l := Int.toNat_of_nonneg (by omega)
      dsimp only
      rw [hc, hcy]; ring
  · rcases hcol with hcx | hcx
    · refine ⟨_, restore_mem_left buf l r t b W (cy - t).toNat (by omega), ?_⟩
      have hc : (((cy - t).toNat : ℤ)) = cy - t := Int.toNat_of_nonneg (by omega)
      dsimp only
      rw [hc, hcx]; ring
    · by_cases hy : cy < b
      · refine ⟨_, restore_mem_right buf l r t b W (cy - t + 1).toNat (by omega), ?_⟩
        have hc : (((cy - t + 1).toNat : ℤ)) = cy - t + 1 := Int.toNat_of_nonneg (by omega)
        dsimp only
        rw [hc, hcx]; ring
      · have hy2 : cy = b := by omega
        refine ⟨_, restore_mem_bottom buf l r t b W (r - l).toNat (by omega), ?_⟩
        have hc : (((r - l).toNat : ℤ)) = r - l := Int.toNat_of_nonneg (by omega)
        dsimp only
        rw [hc, hcx, hy2]; ring

/-- C2 amended: after the outline of an on-surface cursor rectangle
(`1 ≤ left ≤ right < W`, `1 ≤ top ≤ bottom < H`) is saved (lines 236-241) and
drawn over with any pen (lines 244-248), the restore loops of lines 225-230
write every border pixel of the rectangle back to its value immediately
before the draw.  However, the corner pixels are not each saved exactly once:
the top edge covers columns `left-1 .. right-1` and the right edge rows
`top-1 .. bottom-1`, so the two left corners are saved by two edge buffers
(harmlessly, as both saves happen before the draw). -/
theorem cursor_restore_law (buf0 : ℤ → ℕ) (pen : ℕ) (l r t b W H cx cy : ℤ)
    (_hl : 1 ≤ l) (hlr : l ≤ r) (_hrW : r < W) (_ht : 1 ≤ t) (htb : t ≤ b) (_hbH : b < H)
    (hborder : ((cy = t ∨ cy = b) ∧ l ≤ cx ∧ cx ≤ r) ∨
      ((cx = l ∨ cx = r) ∧ t ≤ cy ∧ cy ≤ b)) :
    writeSeq (writeSeq buf0 (drawWrites l r t b W pen)) (restoreWrites buf0 l r t b W)
      (cx + cy * W) = buf0 (cx + cy * W) :=
  writeSeq_restore buf0 (cx + cy * W) (restoreWrites buf0 l r t b W) _
    (restoreWrites_values buf0 l r t b W)
    (restoreWrites_cover buf0 l r t b W cx cy hlr htb hborder)

theorem cursor_restore_law_witness :
    ((1 : ℤ) ≤ 2 ∧ (2 : ℤ) ≤ 5 ∧ (5 : ℤ) < 8 ∧ (1 : ℤ) ≤ 1 ∧ (1 : ℤ) ≤ 4 ∧ (4 : ℤ) < 8 ∧
      ((((1 : ℤ) = 1 ∨ (1 : ℤ) = 4) ∧ (2 : ℤ) ≤ 2 ∧ (2 : ℤ) ≤ 5) ∨
        (((2 : ℤ) = 2 ∨ (2 : ℤ) = 5) ∧ (1 : ℤ) ≤ 1 ∧ (1 : ℤ) ≤ 4))) ∧
      writeSeq (writeSeq (fun a : ℤ => (a + a + 5).toNat) (drawWrites 2 5 1 4 8 7))
          (restoreWrites (fun a : ℤ => (a + a + 5).toNat) 2 5 1 4 8) (2 + 1 * 8) =
        (fun a : ℤ => (a + a + 5).toNat) (2 + 1 * 8) :=
  ⟨by decide,
    cursor_restore_law (fun a : ℤ => (a + a + 5).toNat) 7 2 5 1 4 8 8 2 1
      (by decide) (by decide) (by decide) (by decide) (by decide) (by decide)
      (by decide)⟩

/-- Lines 236-241: the flat addresses read while saving the four border-pixel
buffers of a new cursor rectangle, in loop order. -/
def saveReadAddrs (l r t b W : ℤ) : List ℤ :=
  ((List.range (r - l + 1).toNat).flatMap fun i => [l + i - 1 + t * W, l + i + b * W]) ++
  ((List.range (b - t + 1).toNat).flatMap fun i => [l + (t + i) * W, r + (t + i - 1) * W])

/-- C2 counterexample: for the cursor rectangle `{left 5, right 8, top 3,
bottom 6}` on the 240-wide surface, the top-left corner pixel (flat address
`5 + 3*240 = 725`) is read into the save buffers twice — once by the top
edge (at `i = 1`, since that edge is saved shifted one pixel left) and once
by the left edge (at `i = 0`).  Corner pixels are therefore not saved exactly
once, and the top/bottom edges do not own the corners (the top edge misses
the top-right corner entirely, while the left edge includes both of its
corners). -/
theorem corner_saved_twice :
    (saveReadAddrs 5 8 3 6 240).count (5 + 3 * 240) = 2 ∧
      ¬ (saveReadAddrs 5 8 3 6 240).count (5 + 3 * 240) = 1 := by decide
